import Mathlib

/-!
Verification development for the `pdevisualizer` time-stepping PDE solver
(heat/diffusion and wave equations on regular 2D grids with pluggable
boundary conditions).  The repository ships only the demo drivers; the core
solver package they import is modelled here from the specification, using
exact rational arithmetic in place of IEEE floats.  Fields are total
functions `ℕ → ℕ → ℚ` together with an explicit `(rows, cols)` shape; the
solver never reads an index outside the grid.
-/

namespace PDEVis

/-- Modelled from the spec: the equation-kind selector of the solver
(`heat` | `wave`); the core supports exactly these two kinds. -/
inductive EquationKind where
  | heat
  | wave
deriving DecidableEq, Repr

/-- Modelled from the spec: the closed tagged-union of boundary conditions
(Dirichlet fixed-value, Neumann fixed-flux, Periodic wraparound, Absorbing
damping layer). -/
inductive BoundaryCondition where
  | dirichlet (value : ℚ)
  | neumann (flux : ℚ)
  | periodic
  | absorbing
deriving DecidableEq, Repr

/-- Modelled from the spec: the error taxonomy of the core
(`InvalidShapeError`, `ConfigurationError`, `InvalidParameterError`,
`UnsupportedEquationError`, plus the shape-mismatch failure of
`set_initial_conditions`). -/
inductive PDEError where
  | invalidShape
  | configuration
  | invalidParameter
  | unsupportedEquation
  | shapeMismatch
deriving DecidableEq, Repr

/-- A 2D scalar field, indexed by (row, column). -/
abbrev Field : Type := ℕ → ℕ → ℚ

/-- Modelled from the spec: the solver state — equation kind, grid shape,
the immutable boundary condition, physical parameters (`alpha` for heat,
`c` for wave, time step `dt`, spacings `dx`, `dy` defaulting to 1), the
current field `u` and, for wave, the previous field `uPrev`. -/
structure Solver where
  kind : EquationKind
  rows : ℕ
  cols : ℕ
  boundary : BoundaryCondition
  alpha : ℚ
  c : ℚ
  dt : ℚ
  dx : ℚ
  dy : ℚ
  u : Field
  uPrev : Field

/-- A cell is on the outermost index ring of an `rows × cols` grid. -/
def isEdge (rows cols i j : ℕ) : Prop :=
  i = 0 ∨ i + 1 = rows ∨ j = 0 ∨ j + 1 = cols

instance (rows cols i j : ℕ) : Decidable (isEdge rows cols i j) := by
  unfold isEdge; infer_instance

/-- A cell is interior: at least one cell away from every edge. -/
def isInterior (rows cols i j : ℕ) : Prop :=
  1 ≤ i ∧ i + 1 < rows ∧ 1 ≤ j ∧ j + 1 < cols

instance (rows cols i j : ℕ) : Decidable (isInterior rows cols i j) := by
  unfold isInterior; infer_instance

/-- Modelled from the spec: the 5-point Laplacian stencil at an interior
cell, as a per-axis second difference (for `dx = dy` this is the four
von-Neumann neighbors minus four times the center, divided by the spacing
squared). -/
def lapAt (dx dy : ℚ) (f : Field) (i j : ℕ) : ℚ :=
  (f (i - 1) j - 2 * f i j + f (i + 1) j) / dy ^ 2 +
    (f i (j - 1) - 2 * f i j + f i (j + 1)) / dx ^ 2

/-- Modelled from the spec: the 5-point Laplacian with all neighbor index
arithmetic wrapped modulo the grid dimensions, used by the stencil pass
itself under Periodic boundaries. -/
def lapWrap (rows cols : ℕ) (dx dy : ℚ) (f : Field) (i j : ℕ) : ℚ :=
  (f ((i + rows - 1) % rows) j - 2 * f i j + f ((i + 1) % rows) j) / dy ^ 2 +
    (f i ((j + cols - 1) % cols) - 2 * f i j + f i ((j + 1) % cols)) / dx ^ 2

/-- Modelled from the spec: Dirichlet `apply` writes the fixed value into
every cell of the four edges. -/
def dirichletApply (rows cols : ℕ) (value : ℚ) (f : Field) : Field :=
  fun i j => if isEdge rows cols i j then value else f i j

/-- Modelled from the spec: Neumann `apply` sets each edge cell equal to
its nearest interior neighbor plus `flux * spacing` (rows use `dy`, columns
`dx`; a corner picks up both contributions, matching a row pass followed by
a column pass). -/
def neumannApply (rows cols : ℕ) (dx dy flux : ℚ) (f : Field) : Field :=
  fun i j =>
    let ci := if i = 0 then 1 else if i + 1 = rows then rows - 2 else i
    let cj := if j = 0 then 1 else if j + 1 = cols then cols - 2 else j
    f ci cj + flux * ((if ci = i then 0 else dy) + (if cj = j then 0 else dx))

/-- Modelled from the spec: width of the Absorbing damping layer — about
5% of the smaller grid dimension, with a minimum of 2 cells. -/
def absorbWidth (rows cols : ℕ) : ℕ :=
  max 2 (min rows cols * 5 / 100)

/-- Distance of a cell from the nearest edge of the grid. -/
def distToEdge (rows cols i j : ℕ) : ℕ :=
  min (min i (rows - 1 - i)) (min j (cols - 1 - j))

/-- Modelled from the spec: the Absorbing attenuation profile — a simple
monotonic ramp on the layer of width `w`, from near 0 at the outer edge to
1 just inside the layer, never exactly constant (the exact profile is left
open by the spec). -/
def absorbFactor (w d : ℕ) : ℚ :=
  if d < w then ((d : ℚ) + 1) / ((w : ℚ) + 1) else 1

/-- Modelled from the spec: Absorbing `apply` multiplies every cell in the
boundary layer by its damping factor. -/
def absorbingApply (rows cols : ℕ) (f : Field) : Field :=
  fun i j => absorbFactor (absorbWidth rows cols) (distToEdge rows cols i j) * f i j

/-- Modelled from the spec: `apply(field)` of the active boundary
condition; Periodic has no standalone apply step (its semantics live in
the wrapped stencil pass). -/
def applyBoundary (b : BoundaryCondition) (rows cols : ℕ) (dx dy : ℚ)
    (f : Field) : Field :=
  match b with
  | .dirichlet v => dirichletApply rows cols v f
  | .neumann flux => neumannApply rows cols dx dy flux f
  | .periodic => f
  | .absorbing => absorbingApply rows cols f

/-- Modelled from the spec: the heat stencil pass.  Under Periodic
boundaries every in-grid cell is updated with wrapped neighbor indices;
otherwise only interior cells are updated (edge cells are then corrected
by the boundary's `apply`). -/
def heatStencil (s : Solver) : Field :=
  fun i j =>
    match s.boundary with
    | .periodic =>
        if i < s.rows ∧ j < s.cols then
          s.u i j + s.alpha * s.dt * lapWrap s.rows s.cols s.dx s.dy s.u i j
        else s.u i j
    | _ =>
        if isInterior s.rows s.cols i j then
          s.u i j + s.alpha * s.dt * lapAt s.dx s.dy s.u i j
        else s.u i j

/-- Modelled from the spec: the wave leapfrog stencil pass,
`2*u - u_prev + (c*dt)^2 * Laplacian(u)`, with the same Periodic
index-wrapping rule as the heat pass. -/
def waveStencil (s : Solver) : Field :=
  fun i j =>
    match s.boundary with
    | .periodic =>
        if i < s.rows ∧ j < s.cols then
          2 * s.u i j - s.uPrev i j +
            (s.c * s.dt) ^ 2 * lapWrap s.rows s.cols s.dx s.dy s.u i j
        else s.u i j
    | _ =>
        if isInterior s.rows s.cols i j then
          2 * s.u i j - s.uPrev i j + (s.c * s.dt) ^ 2 * lapAt s.dx s.dy s.u i j
        else s.u i j

/-- Modelled from the spec: one time step — the equation kind's stencil
pass followed by the boundary condition's `apply`; for wave, `u_prev` is
then set to the pre-step `u`. -/
def step (s : Solver) : Solver :=
  match s.kind with
  | .heat =>
      { s with u := applyBoundary s.boundary s.rows s.cols s.dx s.dy (heatStencil s) }
  | .wave =>
      { s with
        u := applyBoundary s.boundary s.rows s.cols s.dx s.dy (waveStencil s)
        uPrev := s.u }

/-- Modelled from the spec: `solve(steps)` applies the per-step update
`steps` times sequentially; the returned snapshot is the final `u`. -/
def solve (s : Solver) : ℕ → Solver
  | 0 => s
  | n + 1 => solve (step s) n

/-- Modelled from the spec: `set_initial_conditions(field)` — the field
(carrying its own shape) must match the solver's grid shape exactly,
otherwise the call fails synchronously with `ShapeMismatchError`; on
success `u` is set to the field and, consistent with a zero-velocity
start, `u_prev` is initialized equal to the same field. -/
def setInitialConditions (s : Solver) (fr fc : ℕ) (f : Field) :
    Except PDEError Solver :=
  if fr = s.rows ∧ fc = s.cols then
    .ok { s with u := f, uPrev := f }
  else
    .error .shapeMismatch

/-- Modelled from the spec: the default boundary condition installed when
the constructor's boundary argument is omitted (the demos construct
`PDESolver(kind, grid_shape)` with no boundary and proceed normally). -/
def defaultBoundary : BoundaryCondition := .dirichlet 0

/-- Modelled from the spec: the constructor
`Solver(equation_kind, grid_shape, boundary_condition)`; the boundary
argument is optional, the shape must be a pair of positive integers
(`InvalidShapeError` otherwise), parameters default to 1 and the field to
all zeros. -/
def mkSolver (kind : EquationKind) (rows cols : ℕ)
    (boundary : Option BoundaryCondition := none) : Except PDEError Solver :=
  if 0 < rows ∧ 0 < cols then
    .ok { kind := kind, rows := rows, cols := cols,
          boundary := boundary.getD defaultBoundary,
          alpha := 1, c := 1, dt := 1, dx := 1, dy := 1,
          u := fun _ _ => 0, uPrev := fun _ _ => 0 }
  else
    .error .invalidShape

/-- The recognized named parameters of `set_parameters`. -/
inductive ParamName where
  | alpha
  | c
  | dt
deriving DecidableEq, Repr

/-- Whether one named parameter is recognized by the given equation kind. -/
def paramAllowed (kind : EquationKind) (p : ParamName) : Bool :=
  match kind, p with
  | .heat, .alpha => true
  | .heat, .dt => true
  | .wave, .c => true
  | .wave, .dt => true
  | _, _ => false

/-- Store one validated parameter value into the solver state. -/
def setParam (s : Solver) (p : ParamName) (v : ℚ) : Solver :=
  match p with
  | .alpha => { s with alpha := v }
  | .c => { s with c := v }
  | .dt => { s with dt := v }

/-- Modelled from the spec: `set_parameters(**named_parameters)` —
recognized names depend on the equation kind (heat: `alpha`, `dt`; wave:
`c`, `dt`); an unrecognized name fails with `ConfigurationError` and a
non-positive value fails with `InvalidParameterError`, synchronously. -/
def setParameters (s : Solver) : List (ParamName × ℚ) → Except PDEError Solver
  | [] => .ok s
  | (p, v) :: rest =>
      if paramAllowed s.kind p then
        if 0 < v then setParameters (setParam s p v) rest
        else .error .invalidParameter
      else .error .configuration

/-- Total sum of the in-grid cells of a field. -/
def totalSum (rows cols : ℕ) (f : Field) : ℚ :=
  ∑ i ∈ Finset.range rows, ∑ j ∈ Finset.range cols, f i j

/-- Total squared-field energy of the in-grid cells of a field. -/
def energySum (rows cols : ℕ) (f : Field) : ℚ :=
  ∑ i ∈ Finset.range rows, ∑ j ∈ Finset.range cols, (f i j) ^ 2

/-- Modelled from the spec: `advisory_is_stable()` — whether the current
parameters satisfy the relevant stability bound (heat:
`alpha*dt*(1/dx^2+1/dy^2) <= 1/2`; wave CFL, in the equivalent squared
form avoiding the square root: `(c*dt)^2*(1/dx^2+1/dy^2) <= 1`). -/
def advisoryIsStable (s : Solver) : Bool :=
  match s.kind with
  | .heat => decide (s.alpha * s.dt * (1 / s.dx ^ 2 + 1 / s.dy ^ 2) ≤ 1 / 2)
  | .wave => decide ((s.c * s.dt) ^ 2 * (1 / s.dx ^ 2 + 1 / s.dy ^ 2) ≤ 1)

/-- The field is zero at every cell whose distance from the boundary of the
grid is at most `m` (including all indices outside the grid, which the
solver never reads). -/
def vanishesNear (rows cols m : ℕ) (f : Field) : Prop :=
  ∀ i j, i ≤ m ∨ rows ≤ i + m + 1 ∨ j ≤ m ∨ cols ≤ j + m + 1 → f i j = 0

/-- The parameter list a caller passes to `set_parameters` for the given
equation kind (heat: `alpha` and `dt`; wave: `c` and `dt`). -/
def kindParams (k : EquationKind) (v d : ℚ) : List (ParamName × ℚ) :=
  match k with
  | .heat => [(.alpha, v), (.dt, d)]
  | .wave => [(.c, v), (.dt, d)]

/-- Initial field of the Neumann heat-conservation scenario: a single hot
cell of value 100 at the center of a 5×5 grid. -/
def hotCenter5 : Field := fun i j => if i = 2 ∧ j = 2 then 100 else 0

/-- A 5×5 heat solver with insulated (Neumann flux-0) boundaries, hot
center cell, `alpha = 1/4`, `dt = 2/5`. -/
def heatNeumann5 : Solver :=
  { kind := .heat, rows := 5, cols := 5, boundary := .neumann 0,
    alpha := 1/4, c := 1, dt := 2/5, dx := 1, dy := 1,
    u := hotCenter5, uPrev := hotCenter5 }

/-- Initial field of the periodic-wraparound scenario: a point source at
`(1, 3)`, adjacent to edge row 0 of a 6×6 grid. -/
def edgeSource6 : Field := fun i j => if i = 1 ∧ j = 3 then 100 else 0

/-- A 6×6 heat solver with Periodic boundaries and a point source adjacent
to the top edge. -/
def heatPeriodic6 : Solver :=
  { kind := .heat, rows := 6, cols := 6, boundary := .periodic,
    alpha := 1/4, c := 1, dt := 2/5, dx := 1, dy := 1,
    u := edgeSource6, uPrev := edgeSource6 }

/-- The same scenario as `heatPeriodic6` but with Dirichlet(0) boundaries. -/
def heatDirichlet6 : Solver := { heatPeriodic6 with boundary := .dirichlet 0 }

/-- The same scenario as `heatPeriodic6` but with Neumann(0) boundaries. -/
def heatNeumann6 : Solver := { heatPeriodic6 with boundary := .neumann 0 }

/-- Initial pulse of the wave energy-retention scenario: a unit pulse at
the center of a 7×7 grid. -/
def pulseCenter7 : Field := fun i j => if i = 3 ∧ j = 3 then 1 else 0

/-- A 7×7 wave solver with reflecting (Neumann flux-0) boundaries, center
pulse, `c = 1`, `dt = 1/2`. -/
def waveNeumann7 : Solver :=
  { kind := .wave, rows := 7, cols := 7, boundary := .neumann 0,
    alpha := 1, c := 1, dt := 1/2, dx := 1, dy := 1,
    u := pulseCenter7, uPrev := pulseCenter7 }

/-- The same wave scenario as `waveNeumann7` (identical initial pulse and
parameters) but with Absorbing boundaries. -/
def waveAbsorbing7 : Solver := { waveNeumann7 with boundary := .absorbing }

/-- Initial field of the conservation witness: a hot cell at `(4, 4)`,
three cells away from every edge of a 9×9 grid. -/
def deepHot9 : Field := fun i j => if i = 4 ∧ j = 4 then 100 else 0

/-- A 9×9 heat solver with insulated (Neumann flux-0) boundaries and a hot
cell well inside the interior. -/
def heatNeumann9 : Solver :=
  { kind := .heat, rows := 9, cols := 9, boundary := .neumann 0,
    alpha := 1/4, c := 1, dt := 2/5, dx := 1, dy := 1,
    u := deepHot9, uPrev := deepHot9 }

theorem step_u_heat (s : Solver) (hk : s.kind = .heat) :
    (step s).u = applyBoundary s.boundary s.rows s.cols s.dx s.dy (heatStencil s) := by
  simp [step, hk]

theorem step_u_wave (s : Solver) (hk : s.kind = .wave) :
    (step s).u = applyBoundary s.boundary s.rows s.cols s.dx s.dy (waveStencil s) := by
  simp [step, hk]

theorem step_uPrev_wave (s : Solver) (hk : s.kind = .wave) :
    (step s).uPrev = s.u := by
  simp [step, hk]

theorem solve_eq_iterate (n : ℕ) : ∀ s : Solver, solve s n = step^[n] s := by
  induction n with
  | zero => intro s; rfl
  | succ n ih =>
      intro s
      rw [solve, ih (step s), Function.iterate_succ_apply]

/-- Claim C6: `solve(0)` is a no-op — it returns a field equal to the
current field and leaves the solver's state unchanged. -/
theorem solve_zero_noop (s : Solver) :
    (solve s 0).u = s.u ∧ solve s 0 = s :=
  ⟨rfl, rfl⟩

/-- Claim C7: `set_initial_conditions` fails with `ShapeMismatchError`
exactly when the field's shape differs from the solver's grid shape, it
fails with no other error, the check happens synchronously at this call,
and on success the state is the old state with just the field (and the
previous field) replaced. -/
theorem setInitialConditions_shape_spec (s : Solver) (fr fc : ℕ) (f : Field) :
    (setInitialConditions s fr fc f = .error .shapeMismatch ↔
      ¬(fr = s.rows ∧ fc = s.cols)) ∧
    (∀ e, setInitialConditions s fr fc f = .error e → e = .shapeMismatch) ∧
    (∀ s', setInitialConditions s fr fc f = .ok s' →
      (fr = s.rows ∧ fc = s.cols) ∧ s' = { s with u := f, uPrev := f }) := by
  unfold setInitialConditions
  by_cases h : fr = s.rows ∧ fc = s.cols <;> simp [h]

/-- Claim C8: stepping is deterministic — two runs of `solve` on equal
solver states with equal step counts produce equal snapshots and equal
final states (the core is pure; there is no hidden or transient state). -/
theorem solve_deterministic (s t : Solver) (n m : ℕ) (hs : s = t) (hn : n = m) :
    (solve s n).u = (solve t m).u ∧ solve s n = solve t m := by
  subst hs; subst hn; exact ⟨rfl, rfl⟩

theorem solve_deterministic_witness :
    (heatNeumann5 = heatNeumann5 ∧ (3 : ℕ) = 3) ∧
    ((solve heatNeumann5 3).u = (solve heatNeumann5 3).u ∧
      solve heatNeumann5 3 = solve heatNeumann5 3) :=
  ⟨⟨rfl, rfl⟩, solve_deterministic heatNeumann5 heatNeumann5 3 3 rfl rfl⟩

/-- Claim C1: a heat step is exactly one explicit finite-difference
update — the stencil pass gives every interior cell its old value plus
`alpha * dt` times the 5-point Laplacian (four von-Neumann neighbors minus
four times the center, divided by the spacing squared), and the active
boundary condition is applied to the stencil result afterwards, whatever
the configured boundary and current field. -/
theorem heat_step_update_rule (s : Solver) (hk : s.kind = .heat)
    (hxy : s.dx = s.dy) (i j : ℕ) (hint : isInterior s.rows s.cols i j) :
    (step s).u = applyBoundary s.boundary s.rows s.cols s.dx s.dy (heatStencil s) ∧
    heatStencil s i j = s.u i j + s.alpha * s.dt *
      ((s.u (i - 1) j + s.u (i + 1) j + s.u i (j - 1) + s.u i (j + 1)
        - 4 * s.u i j) / s.dx ^ 2) := by
  obtain ⟨h1, h2, h3, h4⟩ := hint
  refine ⟨step_u_heat s hk, ?_⟩
  cases hb : s.boundary with
  | periodic =>
      have e1 : (i + s.rows - 1) % s.rows = i - 1 := by
        have : i + s.rows - 1 = (i - 1) + s.rows := by omega
        rw [this, Nat.add_mod_right, Nat.mod_eq_of_lt (by omega)]
      have e2 : (i + 1) % s.rows = i + 1 := Nat.mod_eq_of_lt h2
      have e3 : (j + s.cols - 1) % s.cols = j - 1 := by
        have : j + s.cols - 1 = (j - 1) + s.cols := by omega
        rw [this, Nat.add_mod_right, Nat.mod_eq_of_lt (by omega)]
      have e4 : (j + 1) % s.cols = j + 1 := Nat.mod_eq_of_lt h4
      simp only [heatStencil, hb, lapWrap, e1, e2, e3, e4,
        if_pos (And.intro (by omega : i < s.rows) (by omega : j < s.cols))]
      rw [← hxy]; ring
  | dirichlet v =>
      simp only [heatStencil, hb]
      rw [if_pos (show isInterior s.rows s.cols i j from ⟨h1, h2, h3, h4⟩)]
      simp only [lapAt]; rw [← hxy]; ring
  | neumann flux =>
      simp only [heatStencil, hb]
      rw [if_pos (show isInterior s.rows s.cols i j from ⟨h1, h2, h3, h4⟩)]
      simp only [lapAt]; rw [← hxy]; ring
  | absorbing =>
      simp only [heatStencil, hb]
      rw [if_pos (show isInterior s.rows s.cols i j from ⟨h1, h2, h3, h4⟩)]
      simp only [lapAt]; rw [← hxy]; ring

theorem heat_step_update_rule_witness :
    (heatNeumann5.kind = .heat ∧ heatNeumann5.dx = heatNeumann5.dy ∧
      isInterior heatNeumann5.rows heatNeumann5.cols 2 2) ∧
    ((step heatNeumann5).u = applyBoundary heatNeumann5.boundary heatNeumann5.rows
        heatNeumann5.cols heatNeumann5.dx heatNeumann5.dy (heatStencil heatNeumann5) ∧
      heatStencil heatNeumann5 2 2 = heatNeumann5.u 2 2 +
        heatNeumann5.alpha * heatNeumann5.dt *
        ((heatNeumann5.u (2 - 1) 2 + heatNeumann5.u (2 + 1) 2 +
          heatNeumann5.u 2 (2 - 1) + heatNeumann5.u 2 (2 + 1)
          - 4 * heatNeumann5.u 2 2) / heatNeumann5.dx ^ 2)) :=
  ⟨⟨rfl, rfl, by decide⟩,
    heat_step_update_rule heatNeumann5 rfl rfl 2 2 (by decide)⟩

theorem waveStencil_interior (s : Solver) (hxy : s.dx = s.dy) (i j : ℕ)
    (hint : isInterior s.rows s.cols i j) :
    waveStencil s i j = 2 * s.u i j - s.uPrev i j + (s.c * s.dt) ^ 2 *
      ((s.u (i - 1) j + s.u (i + 1) j + s.u i (j - 1) + s.u i (j + 1)
        - 4 * s.u i j) / s.dx ^ 2) := by
  obtain ⟨h1, h2, h3, h4⟩ := hint
  cases hb : s.boundary with
  | periodic =>
      have e1 : (i + s.rows - 1) % s.rows = i - 1 := by
        have : i + s.rows - 1 = (i - 1) + s.rows := by omega
        rw [this, Nat.add_mod_right, Nat.mod_eq_of_lt (by omega)]
      have e2 : (i + 1) % s.rows = i + 1 := Nat.mod_eq_of_lt h2
      have e3 : (j + s.cols - 1) % s.cols = j - 1 := by
        have : j + s.cols - 1 = (j - 1) + s.cols := by omega
        rw [this, Nat.add_mod_right, Nat.mod_eq_of_lt (by omega)]
      have e4 : (j + 1) % s.cols = j + 1 := Nat.mod_eq_of_lt h4
      simp only [waveStencil, hb, lapWrap, e1, e2, e3, e4,
        if_pos (And.intro (by omega : i < s.rows) (by omega : j < s.cols))]
      rw [← hxy]; ring
  | dirichlet v =>
      simp only [waveStencil, hb]
      rw [if_pos (show isInterior s.rows s.cols i j from ⟨h1, h2, h3, h4⟩)]
      simp only [lapAt]; rw [← hxy]; ring
  | neumann flux =>
      simp only [waveStencil, hb]
      rw [if_pos (show isInterior s.rows s.cols i j from ⟨h1, h2, h3, h4⟩)]
      simp only [lapAt]; rw [← hxy]; ring
  | absorbing =>
      simp only [waveStencil, hb]
      rw [if_pos (show isInterior s.rows s.cols i j from ⟨h1, h2, h3, h4⟩)]
      simp only [lapAt]; rw [← hxy]; ring

/-- Claim C2: a wave step computes `2*u - u_prev + (c*dt)^2 * Laplacian(u)`
on the interior, applies the boundary condition to the result, and then
sets `u_prev` to the pre-step `u`; `set_initial_conditions` with only a
field value initializes `u_prev` equal to that field, so the first
`solve(1)` is exactly the leapfrog formula with `u_prev == u0`. -/
theorem wave_step_update_rule (s : Solver) (hk : s.kind = .wave)
    (hxy : s.dx = s.dy) (f : Field) (s0 : Solver)
    (hset : setInitialConditions s s.rows s.cols f = .ok s0)
    (i j : ℕ) (hint : isInterior s.rows s.cols i j) :
    ((step s).u = applyBoundary s.boundary s.rows s.cols s.dx s.dy (waveStencil s) ∧
      (step s).uPrev = s.u) ∧
    waveStencil s i j = 2 * s.u i j - s.uPrev i j + (s.c * s.dt) ^ 2 *
      ((s.u (i - 1) j + s.u (i + 1) j + s.u i (j - 1) + s.u i (j + 1)
        - 4 * s.u i j) / s.dx ^ 2) ∧
    (s0.u = f ∧ s0.uPrev = f) ∧
    (solve s0 1).u = applyBoundary s.boundary s.rows s.cols s.dx s.dy (waveStencil s0) ∧
    waveStencil s0 i j = f i j + (s.c * s.dt) ^ 2 *
      ((f (i - 1) j + f (i + 1) j + f i (j - 1) + f i (j + 1)
        - 4 * f i j) / s.dx ^ 2) := by
  have hs0 : s0 = { s with u := f, uPrev := f } := by
    simp [setInitialConditions] at hset
    exact hset.symm
  subst hs0
  refine ⟨⟨step_u_wave s hk, step_uPrev_wave s hk⟩,
    waveStencil_interior s hxy i j hint, ⟨rfl, rfl⟩,
    step_u_wave { s with u := f, uPrev := f } hk, ?_⟩
  rw [waveStencil_interior { s with u := f, uPrev := f } hxy i j hint]
  ring

theorem wave_step_update_rule_witness :
    (waveNeumann7.kind = .wave ∧ waveNeumann7.dx = waveNeumann7.dy ∧
      setInitialConditions waveNeumann7 waveNeumann7.rows waveNeumann7.cols
        pulseCenter7 = .ok waveNeumann7 ∧
      isInterior waveNeumann7.rows waveNeumann7.cols 3 3) ∧
    (((step waveNeumann7).u = applyBoundary waveNeumann7.boundary waveNeumann7.rows
        waveNeumann7.cols waveNeumann7.dx waveNeumann7.dy (waveStencil waveNeumann7) ∧
      (step waveNeumann7).uPrev = waveNeumann7.u) ∧
    waveStencil waveNeumann7 3 3 = 2 * waveNeumann7.u 3 3 - waveNeumann7.uPrev 3 3 +
      (waveNeumann7.c * waveNeumann7.dt) ^ 2 *
      ((waveNeumann7.u (3 - 1) 3 + waveNeumann7.u (3 + 1) 3 +
        waveNeumann7.u 3 (3 - 1) + waveNeumann7.u 3 (3 + 1)
        - 4 * waveNeumann7.u 3 3) / waveNeumann7.dx ^ 2) ∧
    (waveNeumann7.u = pulseCenter7 ∧ waveNeumann7.uPrev = pulseCenter7) ∧
    (solve waveNeumann7 1).u = applyBoundary waveNeumann7.boundary waveNeumann7.rows
      waveNeumann7.cols waveNeumann7.dx waveNeumann7.dy (waveStencil waveNeumann7) ∧
    waveStencil waveNeumann7 3 3 = pulseCenter7 3 3 +
      (waveNeumann7.c * waveNeumann7.dt) ^ 2 *
      ((pulseCenter7 (3 - 1) 3 + pulseCenter7 (3 + 1) 3 +
        pulseCenter7 3 (3 - 1) + pulseCenter7 3 (3 + 1)
        - 4 * pulseCenter7 3 3) / waveNeumann7.dx ^ 2)) :=
  ⟨⟨rfl, rfl, rfl, by decide⟩,
    wave_step_update_rule waveNeumann7 rfl rfl pulseCenter7 waveNeumann7 rfl 3 3 (by decide)⟩

/-- Claim C9: `advisory_is_stable()` is true exactly when the current
parameters satisfy the stability bound of the solver's equation kind
(heat: `alpha*dt*(1/dx^2+1/dy^2) <= 1/2`; wave CFL:
`c*dt*sqrt(1/dx^2+1/dy^2) <= 1`, stated over the reals), and the advisory
never blocks `solve`: with the very same parameters, `solve` is the plain
`n`-fold iteration of the per-step update, whatever the advisory says. -/
theorem advisory_is_stable_spec (s : Solver) (hdx : 0 < s.dx) (hdy : 0 < s.dy)
    (hc : 0 < s.c) (hdt : 0 < s.dt) :
    (s.kind = .heat → (advisoryIsStable s = true ↔
      s.alpha * s.dt * (1 / s.dx ^ 2 + 1 / s.dy ^ 2) ≤ 1 / 2)) ∧
    (s.kind = .wave → (advisoryIsStable s = true ↔
      (s.c : ℝ) * (s.dt : ℝ) *
        Real.sqrt (1 / (s.dx : ℝ) ^ 2 + 1 / (s.dy : ℝ) ^ 2) ≤ 1)) ∧
    (∀ n, solve s n = step^[n] s) := by
  refine ⟨?_, ?_, fun n => solve_eq_iterate n s⟩
  · intro hk
    simp [advisoryIsStable, hk]
  · intro hk
    simp only [advisoryIsStable, hk, decide_eq_true_eq]
    have hdx' : (0 : ℝ) < (s.dx : ℝ) := by exact_mod_cast hdx
    have hdy' : (0 : ℝ) < (s.dy : ℝ) := by exact_mod_cast hdy
    have hc' : (0 : ℝ) < (s.c : ℝ) := by exact_mod_cast hc
    have hdt' : (0 : ℝ) < (s.dt : ℝ) := by exact_mod_cast hdt
    have hS : (0 : ℝ) ≤ 1 / (s.dx : ℝ) ^ 2 + 1 / (s.dy : ℝ) ^ 2 := by positivity
    have hcd : (0 : ℝ) ≤ (s.c : ℝ) * (s.dt : ℝ) *
        Real.sqrt (1 / (s.dx : ℝ) ^ 2 + 1 / (s.dy : ℝ) ^ 2) := by positivity
    have hcast : ((s.c * s.dt) ^ 2 * (1 / s.dx ^ 2 + 1 / s.dy ^ 2) ≤ (1 : ℚ)) ↔
        (((s.c : ℝ) * (s.dt : ℝ)) ^ 2 *
          (1 / (s.dx : ℝ) ^ 2 + 1 / (s.dy : ℝ) ^ 2) ≤ (1 : ℝ)) := by
      rw [show (((s.c : ℝ) * (s.dt : ℝ)) ^ 2 *
          (1 / (s.dx : ℝ) ^ 2 + 1 / (s.dy : ℝ) ^ 2)) =
          (((s.c * s.dt) ^ 2 * (1 / s.dx ^ 2 + 1 / s.dy ^ 2) : ℚ) : ℝ) by push_cast; ring,
        show ((1 : ℝ)) = ((1 : ℚ) : ℝ) by norm_num]
      exact_mod_cast Iff.rfl
    rw [hcast]
    have hsq : ((s.c : ℝ) * (s.dt : ℝ) *
        Real.sqrt (1 / (s.dx : ℝ) ^ 2 + 1 / (s.dy : ℝ) ^ 2)) ^ 2 =
        ((s.c : ℝ) * (s.dt : ℝ)) ^ 2 *
          (1 / (s.dx : ℝ) ^ 2 + 1 / (s.dy : ℝ) ^ 2) := by
      rw [mul_pow, Real.sq_sqrt hS]
    rw [← hsq]
    exact pow_le_one_iff_of_nonneg hcd (by norm_num)

theorem advisory_is_stable_spec_witness :
    (0 < heatNeumann5.dx ∧ 0 < heatNeumann5.dy ∧ 0 < heatNeumann5.c ∧
      0 < heatNeumann5.dt) ∧
    ((heatNeumann5.kind = .heat → (advisoryIsStable heatNeumann5 = true ↔
      heatNeumann5.alpha * heatNeumann5.dt *
        (1 / heatNeumann5.dx ^ 2 + 1 / heatNeumann5.dy ^ 2) ≤ 1 / 2)) ∧
    (heatNeumann5.kind = .wave → (advisoryIsStable heatNeumann5 = true ↔
      (heatNeumann5.c : ℝ) * (heatNeumann5.dt : ℝ) *
        Real.sqrt (1 / (heatNeumann5.dx : ℝ) ^ 2 + 1 / (heatNeumann5.dy : ℝ) ^ 2) ≤ 1)) ∧
    (∀ n, solve heatNeumann5 n = step^[n] heatNeumann5)) :=
  ⟨⟨by norm_num [heatNeumann5], by norm_num [heatNeumann5],
     by norm_num [heatNeumann5], by norm_num [heatNeumann5]⟩,
    advisory_is_stable_spec heatNeumann5 (by norm_num [heatNeumann5])
      (by norm_num [heatNeumann5]) (by norm_num [heatNeumann5])
      (by norm_num [heatNeumann5])⟩

/-- Claim C10: the boundary argument of the constructor is optional —
constructing a solver with no boundary argument succeeds for any positive
grid shape, installs the default boundary condition, and `set_parameters`,
`set_initial_conditions` and `solve` then all work normally. -/
theorem mkSolver_default_boundary (k : EquationKind) (r c : ℕ)
    (hr : 0 < r) (hc : 0 < c) (v d : ℚ) (hv : 0 < v) (hd : 0 < d) (f : Field) :
    ∃ s, mkSolver k r c = .ok s ∧ s.boundary = defaultBoundary ∧
      s.kind = k ∧ s.rows = r ∧ s.cols = c ∧
      ∃ s2, setParameters s (kindParams k v d) = .ok s2 ∧
        ∃ s3, setInitialConditions s2 r c f = .ok s3 ∧ s3.u = f ∧
          ∀ n, solve s3 n = step^[n] s3 := by
  unfold mkSolver
  rw [if_pos ⟨hr, hc⟩]
  refine ⟨_, rfl, rfl, rfl, rfl, rfl, ?_⟩
  cases k with
  | heat =>
      refine ⟨{ kind := .heat, rows := r, cols := c, boundary := defaultBoundary,
                alpha := v, c := 1, dt := d, dx := 1, dy := 1,
                u := fun _ _ => 0, uPrev := fun _ _ => 0 }, ?_, ?_⟩
      · simp [kindParams, setParameters, paramAllowed, setParam, hv, hd]
      · refine ⟨{ kind := .heat, rows := r, cols := c, boundary := defaultBoundary,
                  alpha := v, c := 1, dt := d, dx := 1, dy := 1,
                  u := f, uPrev := f }, ?_, rfl, fun n => solve_eq_iterate n _⟩
        simp [setInitialConditions]
  | wave =>
      refine ⟨{ kind := .wave, rows := r, cols := c, boundary := defaultBoundary,
                alpha := 1, c := v, dt := d, dx := 1, dy := 1,
                u := fun _ _ => 0, uPrev := fun _ _ => 0 }, ?_, ?_⟩
      · simp [kindParams, setParameters, paramAllowed, setParam, hv, hd]
      · refine ⟨{ kind := .wave, rows := r, cols := c, boundary := defaultBoundary,
                  alpha := 1, c := v, dt := d, dx := 1, dy := 1,
                  u := f, uPrev := f }, ?_, rfl, fun n => solve_eq_iterate n _⟩
        simp [setInitialConditions]

theorem mkSolver_default_boundary_witness :
    (0 < 4 ∧ 0 < 4 ∧ (0 : ℚ) < 1/4 ∧ (0 : ℚ) < 1/10) ∧
    (∃ s, mkSolver .heat 4 4 = .ok s ∧ s.boundary = defaultBoundary ∧
      s.kind = .heat ∧ s.rows = 4 ∧ s.cols = 4 ∧
      ∃ s2, setParameters s (kindParams .heat (1/4) (1/10)) = .ok s2 ∧
        ∃ s3, setInitialConditions s2 4 4 (fun _ _ => 0) = .ok s3 ∧
          s3.u = (fun _ _ => 0) ∧
          ∀ n, solve s3 n = step^[n] s3) :=
  ⟨⟨by norm_num, by norm_num, by norm_num, by norm_num⟩,
    mkSolver_default_boundary .heat 4 4 (by norm_num) (by norm_num)
      (1/4) (1/10) (by norm_num) (by norm_num) (fun _ _ => 0)⟩

set_option maxRecDepth 1000000 in
set_option maxHeartbeats 4000000 in
/-- Claim C4 (concrete representative run): two wave solvers with the
identical initial pulse, parameters and step count — one Absorbing, one
Neumann — where the pulse has reached the boundary layer (a layer cell is
nonzero by step 2): the total squared-field energy under Absorbing is
strictly below the energy under Neumann, at step 2 and still at step 3. -/
theorem wave_absorbing_energy_below_neumann :
    waveAbsorbing7 = { waveNeumann7 with boundary := .absorbing } ∧
    (solve waveNeumann7 2).u 1 3 ≠ 0 ∧
    energySum 7 7 (solve waveAbsorbing7 2).u < energySum 7 7 (solve waveNeumann7 2).u ∧
    energySum 7 7 (solve waveAbsorbing7 3).u < energySum 7 7 (solve waveNeumann7 3).u := by
  refine ⟨rfl, ?_, ?_, ?_⟩ <;> with_unfolding_all decide

/-- Claim C5: under Periodic boundaries a point source adjacent to the top
edge influences the opposite (bottom) edge after 2 steps — the wrapped
stencil couples row 0 to row 5 — while the Dirichlet and Neumann runs with
identical parameters leave every cell of the bottom edge at zero. -/
theorem periodic_wraparound_influence :
    heatDirichlet6 = { heatPeriodic6 with boundary := .dirichlet 0 } ∧
    heatNeumann6 = { heatPeriodic6 with boundary := .neumann 0 } ∧
    (solve heatPeriodic6 2).u 5 3 ≠ 0 ∧
    (∀ j, j < 6 → (solve heatDirichlet6 2).u 5 j = 0) ∧
    (∀ j, j < 6 → (solve heatNeumann6 2).u 5 j = 0) := by
  refine ⟨rfl, rfl, ?_, ?_, ?_⟩ <;> with_unfolding_all decide

/-- Claim C3 is false as stated: for the 5×5 Neumann(0) heat solver with a
hot center cell, one step changes the total sum from 100 to 140 — the
edge-copy rule adds mass once heat reaches the cells the edges copy from,
far outside floating-point tolerance. -/
theorem heat_neumann_sum_not_conserved :
    totalSum 5 5 heatNeumann5.u = 100 ∧
    totalSum 5 5 (solve heatNeumann5 1).u = 140 ∧
    totalSum 5 5 (solve heatNeumann5 1).u ≠ totalSum 5 5 heatNeumann5.u := by
  refine ⟨?_, ?_, ?_⟩ <;> with_unfolding_all decide

theorem vanishesNear_mono (rows cols m m' : ℕ) (h : m' ≤ m) (f : Field)
    (hv : vanishesNear rows cols m f) : vanishesNear rows cols m' f := by
  intro i j h'
  exact hv i j (by omega)

theorem lapAt_zero (dx dy : ℚ) (u : Field) (i j : ℕ)
    (h0 : u i j = 0) (h1 : u (i - 1) j = 0) (h2 : u (i + 1) j = 0)
    (h3 : u i (j - 1) = 0) (h4 : u i (j + 1) = 0) :
    lapAt dx dy u i j = 0 := by
  rw [lapAt, h0, h1, h2, h3, h4]; ring

theorem heatStencil_neumann (s : Solver) (flux : ℚ)
    (hb : s.boundary = .neumann flux) (i j : ℕ) :
    heatStencil s i j = if isInterior s.rows s.cols i j then
      s.u i j + s.alpha * s.dt * lapAt s.dx s.dy s.u i j else s.u i j := by
  simp [heatStencil, hb]

theorem heatStencil_zero (s : Solver) (flux : ℚ) (hb : s.boundary = .neumann flux)
    (i j : ℕ) (h0 : s.u i j = 0) (h1 : s.u (i - 1) j = 0) (h2 : s.u (i + 1) j = 0)
    (h3 : s.u i (j - 1) = 0) (h4 : s.u i (j + 1) = 0) :
    heatStencil s i j = 0 := by
  rw [heatStencil_neumann s flux hb]
  split
  · rw [lapAt_zero s.dx s.dy s.u i j h0 h1 h2 h3 h4, h0]; ring
  · exact h0

theorem neumannApply_zero_flux (rows cols : ℕ) (dx dy : ℚ) (f : Field) (i j : ℕ) :
    neumannApply rows cols dx dy 0 f i j =
      f (if i = 0 then 1 else if i + 1 = rows then rows - 2 else i)
        (if j = 0 then 1 else if j + 1 = cols then cols - 2 else j) := by
  simp [neumannApply]

theorem stepped_near_zero (s : Solver) (hb : s.boundary = .neumann 0) (m : ℕ)
    (hm : 1 ≤ m) (hv : vanishesNear s.rows s.cols (m + 1) s.u) (i j : ℕ)
    (hnear : i ≤ m ∨ s.rows ≤ i + m + 1 ∨ j ≤ m ∨ s.cols ≤ j + m + 1) :
    neumannApply s.rows s.cols s.dx s.dy 0 (heatStencil s) i j = 0 := by
  rw [neumannApply_zero_flux]
  split_ifs <;>
    exact heatStencil_zero s 0 hb _ _ (hv _ _ (by omega)) (hv _ _ (by omega))
      (hv _ _ (by omega)) (hv _ _ (by omega)) (hv _ _ (by omega))

theorem stepped_cell (s : Solver) (hb : s.boundary = .neumann 0)
    (hv : vanishesNear s.rows s.cols 2 s.u)
    (i j : ℕ) (hi : i < s.rows) (hj : j < s.cols) :
    neumannApply s.rows s.cols s.dx s.dy 0 (heatStencil s) i j =
      s.u i j + s.alpha * s.dt * lapAt s.dx s.dy s.u i j := by
  by_cases hedge : isEdge s.rows s.cols i j
  · rw [isEdge] at hedge
    rw [stepped_near_zero s hb 1 le_rfl
        (vanishesNear_mono s.rows s.cols 2 2 le_rfl s.u hv) i j (by omega),
      hv i j (by omega),
      lapAt_zero s.dx s.dy s.u i j (hv i j (by omega)) (hv _ _ (by omega))
        (hv _ _ (by omega)) (hv _ _ (by omega)) (hv _ _ (by omega))]
    ring
  · rw [isEdge] at hedge
    push_neg at hedge
    obtain ⟨e1, e2, e3, e4⟩ := hedge
    rw [neumannApply_zero_flux, if_neg e1, if_neg e2, if_neg e3, if_neg e4,
      heatStencil_neumann s 0 hb,
      if_pos (show isInterior s.rows s.cols i j from ⟨by omega, by omega, by omega, by omega⟩)]

theorem sum_shift_up (g : ℕ → ℚ) (n : ℕ) (h0 : g 0 = 0) (hn : g n = 0) :
    ∑ i ∈ Finset.range n, g (i + 1) = ∑ i ∈ Finset.range n, g i := by
  have h := Finset.sum_range_succ' g n
  rw [Finset.sum_range_succ, h0, hn, add_zero, add_zero] at h
  exact h.symm

theorem sum_shift_down (g : ℕ → ℚ) (n : ℕ) (hpos : 1 ≤ n)
    (h0 : g 0 = 0) (hn1 : g (n - 1) = 0) :
    ∑ i ∈ Finset.range n, g (i - 1) = ∑ i ∈ Finset.range n, g i := by
  obtain ⟨m, rfl⟩ : ∃ m, n = m + 1 := ⟨n - 1, by omega⟩
  rw [Finset.sum_range_succ' (fun i => g (i - 1)) m]
  simp only [Nat.add_sub_cancel, Nat.zero_sub]
  rw [Finset.sum_range_succ g m, h0]
  rw [show m + 1 - 1 = m by omega] at hn1
  rw [hn1]

theorem row_telescope (u : Field) (rows j : ℕ) (hr : 1 ≤ rows)
    (h0 : u 0 j = 0) (htop : u (rows - 1) j = 0) (hout : u rows j = 0) :
    ∑ i ∈ Finset.range rows, (u (i - 1) j - 2 * u i j + u (i + 1) j) = 0 := by
  have hs : ∑ i ∈ Finset.range rows, (u (i - 1) j - 2 * u i j + u (i + 1) j)
      = (∑ i ∈ Finset.range rows, u (i - 1) j)
        - 2 * (∑ i ∈ Finset.range rows, u i j)
        + (∑ i ∈ Finset.range rows, u (i + 1) j) := by
    rw [Finset.sum_add_distrib, Finset.sum_sub_distrib, Finset.mul_sum]
  rw [hs, sum_shift_down (fun i => u i j) rows hr h0 htop,
    sum_shift_up (fun i => u i j) rows h0 hout]
  ring

theorem col_telescope (u : Field) (cols i : ℕ) (hc : 1 ≤ cols)
    (h0 : u i 0 = 0) (htop : u i (cols - 1) = 0) (hout : u i cols = 0) :
    ∑ j ∈ Finset.range cols, (u i (j - 1) - 2 * u i j + u i (j + 1)) = 0 := by
  have hs : ∑ j ∈ Finset.range cols, (u i (j - 1) - 2 * u i j + u i (j + 1))
      = (∑ j ∈ Finset.range cols, u i (j - 1))
        - 2 * (∑ j ∈ Finset.range cols, u i j)
        + (∑ j ∈ Finset.range cols, u i (j + 1)) := by
    rw [Finset.sum_add_distrib, Finset.sum_sub_distrib, Finset.mul_sum]
  rw [hs, sum_shift_down (fun j => u i j) cols hc h0 htop,
    sum_shift_up (fun j => u i j) cols h0 hout]
  ring

theorem lapAt_total_zero (u : Field) (rows cols : ℕ) (dx dy : ℚ)
    (hr : 1 ≤ rows) (hc : 1 ≤ cols) (hv : vanishesNear rows cols 2 u) :
    ∑ i ∈ Finset.range rows, ∑ j ∈ Finset.range cols, lapAt dx dy u i j = 0 := by
  have hA : ∑ j ∈ Finset.range cols, ∑ i ∈ Finset.range rows,
      (u (i - 1) j - 2 * u i j + u (i + 1) j) = 0 := by
    refine Finset.sum_eq_zero fun j hj => ?_
    exact row_telescope u rows j hr (hv 0 j (by omega))
      (hv (rows - 1) j (by omega)) (hv rows j (by omega))
  have hB : ∑ i ∈ Finset.range rows, ∑ j ∈ Finset.range cols,
      (u i (j - 1) - 2 * u i j + u i (j + 1)) = 0 := by
    refine Finset.sum_eq_zero fun i hi => ?_
    exact col_telescope u cols i hc (hv i 0 (by omega))
      (hv i (cols - 1) (by omega)) (hv i cols (by omega))
  have hsplit : ∀ i j : ℕ, lapAt dx dy u i j =
      (u (i - 1) j - 2 * u i j + u (i + 1) j) * (1 / dy ^ 2)
      + (u i (j - 1) - 2 * u i j + u i (j + 1)) * (1 / dx ^ 2) := by
    intro i j; rw [lapAt]; ring
  simp only [hsplit]
  have e1 : ∑ i ∈ Finset.range rows, ∑ j ∈ Finset.range cols,
      ((u (i - 1) j - 2 * u i j + u (i + 1) j) * (1 / dy ^ 2)
        + (u i (j - 1) - 2 * u i j + u i (j + 1)) * (1 / dx ^ 2))
      = (∑ i ∈ Finset.range rows, ∑ j ∈ Finset.range cols,
          (u (i - 1) j - 2 * u i j + u (i + 1) j) * (1 / dy ^ 2))
        + ∑ i ∈ Finset.range rows, ∑ j ∈ Finset.range cols,
          (u i (j - 1) - 2 * u i j + u i (j + 1)) * (1 / dx ^ 2) := by
    simp [Finset.sum_add_distrib]
  rw [e1]
  simp only [← Finset.sum_mul]
  rw [Finset.sum_comm] at hA
  rw [hA, hB]
  ring

theorem step_preserves_config (s : Solver) :
    (step s).kind = s.kind ∧ (step s).rows = s.rows ∧ (step s).cols = s.cols ∧
    (step s).boundary = s.boundary ∧ (step s).alpha = s.alpha ∧
    (step s).dt = s.dt ∧ (step s).dx = s.dx ∧ (step s).dy = s.dy := by
  cases hk : s.kind <;> simp [step, hk]

theorem step_u_neumann_heat (s : Solver) (hk : s.kind = .heat)
    (hb : s.boundary = .neumann 0) :
    (step s).u = neumannApply s.rows s.cols s.dx s.dy 0 (heatStencil s) := by
  rw [step_u_heat s hk, hb]
  rfl

theorem step_conserves_totalSum (s : Solver) (hk : s.kind = .heat)
    (hb : s.boundary = .neumann 0) (hr : 1 ≤ s.rows) (hc : 1 ≤ s.cols)
    (hv : vanishesNear s.rows s.cols 2 s.u) :
    totalSum s.rows s.cols (step s).u = totalSum s.rows s.cols s.u := by
  rw [step_u_neumann_heat s hk hb]
  unfold totalSum
  rw [Finset.sum_congr rfl fun i hi => Finset.sum_congr rfl fun j hj =>
    stepped_cell s hb hv i j (Finset.mem_range.mp hi) (Finset.mem_range.mp hj)]
  have e1 : ∑ i ∈ Finset.range s.rows, ∑ j ∈ Finset.range s.cols,
      (s.u i j + s.alpha * s.dt * lapAt s.dx s.dy s.u i j)
      = (∑ i ∈ Finset.range s.rows, ∑ j ∈ Finset.range s.cols, s.u i j)
        + ∑ i ∈ Finset.range s.rows, ∑ j ∈ Finset.range s.cols,
          s.alpha * s.dt * lapAt s.dx s.dy s.u i j := by
    simp [Finset.sum_add_distrib]
  rw [e1]
  simp only [← Finset.mul_sum]
  rw [lapAt_total_zero s.u s.rows s.cols s.dx s.dy hr hc hv]
  ring

theorem step_vanishesNear (s : Solver) (hk : s.kind = .heat)
    (hb : s.boundary = .neumann 0) (m : ℕ) (hm : 1 ≤ m)
    (hv : vanishesNear s.rows s.cols (m + 1) s.u) :
    vanishesNear s.rows s.cols m (step s).u := by
  intro i j hnear
  rw [step_u_neumann_heat s hk hb]
  exact stepped_near_zero s hb m hm hv i j hnear

/-- Claim C3, amended: for a heat solver with Neumann(flux=0) boundaries,
the total field sum is exactly conserved over `k` steps whenever the
initial field is zero everywhere within distance `k + 2` of the boundary
(i.e. as long as the diffusing heat cannot reach the two outermost rings
the edge-copy rule reads from); unconditional conservation for every field
and step count fails — see the counterexample. -/
theorem heat_neumann_conserves_while_away (s : Solver) (k : ℕ)
    (hk : s.kind = .heat) (hb : s.boundary = .neumann 0)
    (hr : 1 ≤ s.rows) (hc : 1 ≤ s.cols)
    (hv : vanishesNear s.rows s.cols (k + 2) s.u) :
    totalSum s.rows s.cols (solve s k).u = totalSum s.rows s.cols s.u := by
  induction k generalizing s with
  | zero => rfl
  | succ k ih =>
      obtain ⟨e1, e2, e3, e4, -, -, -, -⟩ := step_preserves_config s
      have hstep : totalSum s.rows s.cols (step s).u = totalSum s.rows s.cols s.u :=
        step_conserves_totalSum s hk hb hr hc
          (vanishesNear_mono s.rows s.cols (k + 3) 2 (by omega) s.u hv)
      have hv' : vanishesNear (step s).rows (step s).cols (k + 2) (step s).u := by
        rw [e2, e3]
        exact step_vanishesNear s hk hb (k + 2) (by omega) hv
      have hrec := ih (step s) (by rw [e1, hk]) (by rw [e4, hb])
        (by rw [e2]; exact hr) (by rw [e3]; exact hc) hv'
      rw [e2, e3] at hrec
      show totalSum s.rows s.cols (solve (step s) k).u = totalSum s.rows s.cols s.u
      rw [hrec, hstep]

theorem heat_neumann_conserves_while_away_witness :
    (heatNeumann9.kind = .heat ∧ heatNeumann9.boundary = .neumann 0 ∧
      1 ≤ heatNeumann9.rows ∧ 1 ≤ heatNeumann9.cols ∧
      vanishesNear heatNeumann9.rows heatNeumann9.cols (1 + 2) heatNeumann9.u) ∧
    totalSum heatNeumann9.rows heatNeumann9.cols (solve heatNeumann9 1).u =
      totalSum heatNeumann9.rows heatNeumann9.cols heatNeumann9.u := by
  have hv : vanishesNear heatNeumann9.rows heatNeumann9.cols (1 + 2) heatNeumann9.u := by
    intro i j h
    show (if i = 4 ∧ j = 4 then (100 : ℚ) else 0) = 0
    rw [if_neg]
    revert h
    show i ≤ 3 ∨ 9 ≤ i + 3 + 1 ∨ j ≤ 3 ∨ 9 ≤ j + 3 + 1 → ¬(i = 4 ∧ j = 4)
    omega
  exact ⟨⟨rfl, rfl, by decide, by decide, hv⟩,
    heat_neumann_conserves_while_away heatNeumann9 1 rfl rfl
      (by decide) (by decide) hv⟩

end PDEVis
